import Mathlib

/-!
Verification of the indent-to-forest core of the `hn` repository.

The central algorithm is `convert` in `api/src/tree.rs`, which turns a flat
list of `(indent, item)` pairs into a forest, and the parent-stack loop in
`story_details` (`api/src/lib.rs`, lines 218-244), which builds the comment
tree with parent back-references.  Both are embedded below as total Lean
functions, translated statement by statement from the Rust source.
-/

namespace HN

/-- `SubTree<T>` from `api/src/tree.rs`: a value together with the ordered
list of its child subtrees. -/
inductive SubTree (T : Type) where
  | mk : T → List (SubTree T) → SubTree T

/-- `SubTree::new` from `api/src/tree.rs`. -/
def SubTree.new {T : Type} (val : T) (children : List (SubTree T)) : SubTree T :=
  SubTree.mk val children

/-- The `val` field of `SubTree`. -/
def SubTree.val {T : Type} : SubTree T → T
  | SubTree.mk v _ => v

/-- The `children` field of `SubTree`. -/
def SubTree.children {T : Type} : SubTree T → List (SubTree T)
  | SubTree.mk _ cs => cs

@[simp] theorem SubTree.val_mk {T : Type} (v : T) (cs : List (SubTree T)) :
    (SubTree.mk v cs).val = v := rfl

@[simp] theorem SubTree.children_mk {T : Type} (v : T) (cs : List (SubTree T)) :
    (SubTree.mk v cs).children = cs := rfl

/-- `Tree<T>` from `api/src/tree.rs`: the forest of root subtrees. -/
structure Tree (T : Type) where
  children : List (SubTree T)

/-- `Tree::new` from `api/src/tree.rs`. -/
def Tree.new {T : Type} (children : List (SubTree T)) : Tree T :=
  Tree.mk children

/-- The inner function `make_tree` of `convert` in `api/src/tree.rs`.

The Rust loop clones the iterator on entry, so a recursive call never
advances the caller's cursor: after building the subtree of an entry with
`ind == indent` the loop resumes right after that entry, skipping (neither
`break` nor `push`) every entry whose indent is greater than `indent`, and
breaking at the first entry whose indent is smaller than `indent`. -/
def make_tree {T : Type} : List (Nat × T) → Nat → List (SubTree T)
  | [], _ => []
  | (ind, val) :: rest, indent =>
    if ind < indent then []
    else if ind = indent then
      SubTree.mk val (make_tree rest (ind + 1)) :: make_tree rest indent
    else
      make_tree rest indent

/-- `convert` from `api/src/tree.rs`. -/
def convert {T : Type} (input : List (Nat × T)) : Tree T :=
  Tree.new (make_tree input 0)

/-- Pre-order flattening of a forest: every value in the forest, parents
before children, siblings in order. -/
def flattenList {T : Type} : List (SubTree T) → List T
  | [] => []
  | SubTree.mk v cs :: rest => v :: (flattenList cs ++ flattenList rest)

/-- Total number of nodes of a forest. -/
def countF {T : Type} : List (SubTree T) → Nat
  | [] => 0
  | SubTree.mk _ cs :: rest => 1 + countF cs + countF rest

/-- All nodes of a forest, in pre-order. -/
def nodesF {T : Type} : List (SubTree T) → List (SubTree T)
  | [] => []
  | SubTree.mk v cs :: rest => SubTree.mk v cs :: (nodesF cs ++ nodesF rest)

/-- Concatenated child values of every node of the forest whose value is `j`
(with distinct values, the children of the unique such node). -/
def adjF (F : List (SubTree Nat)) (j : Nat) : List Nat :=
  match F with
  | [] => []
  | SubTree.mk v cs :: rest =>
    (if j = v then cs.map SubTree.val else []) ++ adjF cs j ++ adjF rest j

/-- `okFrom t l` holds when the first entry of `l` has indent at most `t` and
every later entry's indent exceeds its predecessor's by at most one.  This is
the shape of input the spec's cursor-based reading of the algorithm peeks
without ever entering the §4.1 gap case below threshold `t`. -/
def okFrom (t : Nat) : List (Nat × Nat) → Bool
  | [] => true
  | (i, _) :: rest => decide (i ≤ t) && okFrom (i + 1) rest

/-- The spec's "§4.1 gap case never triggers" condition: the first entry has
indent `0` and each entry's indent exceeds the previous one's by at most one. -/
def noGaps (l : List (Nat × Nat)) : Bool :=
  okFrom 0 l

/-- Every indent of `l` is at least `t`. -/
def geAll (t : Nat) (l : List (Nat × Nat)) : Bool :=
  l.all fun e => decide (t ≤ e.1)

/-- A block of entries that a run of `collect_children` at threshold `t`
consumes entirely: all indents at least `t`, the first exactly `t`, and no
forward jump of more than one. -/
def blockOk (t : Nat) (l : List (Nat × Nat)) : Bool :=
  geAll t l && okFrom t l

/-- Modelled from the spec: the cursor-based `collect_children` of §4.1 with
the stop-on-gap policy the spec asserts ("if its indent `> threshold` …
stop the loop (same as `< threshold`), leaving it for the caller").  The
cursor is the returned remainder list; `fuel` dominates the recursion and
never runs out when it starts at `length + 1` since every call receives a
strictly shorter list. -/
def collectStop {T : Type} : Nat → List (Nat × T) → Nat → List (SubTree T) × List (Nat × T)
  | 0, l, _ => ([], l)
  | _ + 1, [], _ => ([], [])
  | fuel + 1, (ind, val) :: rest, threshold =>
    if ind = threshold then
      let (cs, rem) := collectStop fuel rest (threshold + 1)
      let (sibs, rem') := collectStop fuel rem threshold
      (SubTree.mk val cs :: sibs, rem')
    else
      ([], (ind, val) :: rest)

/-- Modelled from the spec: `build_forest` under the §4.1 stop-on-gap policy. -/
def convertStop {T : Type} (input : List (Nat × T)) : Tree T :=
  Tree.new (collectStop (input.length + 1) input 0).1

/-- The mutable state of the comment-building loop of `story_details`
(`api/src/lib.rs`, lines 218-244).  Comments are identified by their position
in the scraped row sequence, which models `Rc` identity: `comments` is the
`comments` vector of root comments, `stack` the `parent_stack` with its top
at the head, `childrenF i` the `children` vector of comment `i`, and
`parentF i` its `parent` back-reference. -/
structure BState where
  comments : List Nat
  stack : List Nat
  childrenF : Nat → List Nat
  parentF : Nat → Option Nat

/-- The `while indent < parent_stack.len() { parent_stack.pop(); }` loop of
`story_details`. -/
def popTo : List Nat → Nat → List Nat
  | [], _ => []
  | x :: rest, indent =>
    if indent < (x :: rest).length then popTo rest indent else x :: rest

/-- One iteration of the comment loop of `story_details` for a row with the
given `indent`, creating the comment with identity `id`.  `none` models the
`parent_stack.pop().unwrap()` panic on an empty stack. -/
def comment_step (s : BState) (indent : Nat) (id : Nat) : Option BState :=
  let stack := popTo s.stack indent
  if indent = 0 then
    some { comments := s.comments ++ [id]
           stack := id :: stack
           childrenF := s.childrenF
           parentF := s.parentF }
  else
    match stack with
    | [] => none
    | parent :: rest =>
      some { comments := s.comments
             stack := id :: parent :: rest
             childrenF := fun j => if j = parent then s.childrenF parent ++ [id] else s.childrenF j
             parentF := fun j => if j = id then some parent else s.parentF j }

/-- The comment loop of `story_details` over a list of `(indent, id)` rows. -/
def comment_loop : BState → List (Nat × Nat) → Option BState
  | s, [] => some s
  | s, (indent, id) :: rest =>
    match comment_step s indent id with
    | none => none
    | some s' => comment_loop s' rest

/-- The state at the start of the comment loop: empty `comments`, empty
`parent_stack`, every comment with empty `children` and no `parent`. -/
def initState : BState :=
  { comments := [], stack := [], childrenF := fun _ => [], parentF := fun _ => none }

/-- Decorate the scraped indent sequence with comment identities: row `k`
with indent `i` becomes the entry `(i, k)`. -/
def decRows (rows : List Nat) : List (Nat × Nat) :=
  rows.enum.map fun p => (p.2, p.1)

/-- `story_details`' comment-tree construction on the sequence of scraped
indents, one per `tr.comtr` row in document order. -/
def build_comments (rows : List Nat) : Option BState :=
  comment_loop initState (decRows rows)

/-- The root comments produced by `story_details` ( `[]` if the loop panics). -/
def commentsOf (rows : List Nat) : List Nat :=
  match build_comments rows with
  | some s => s.comments
  | none => []

/-- The `children` vector of comment `j` after the loop ( `[]` if it panics). -/
def childrenOf (rows : List Nat) (j : Nat) : List Nat :=
  match build_comments rows with
  | some s => s.childrenF j
  | none => []

/-- The `parent` back-reference of comment `j` after the loop. -/
def parentOf (rows : List Nat) (j : Nat) : Option Nat :=
  match build_comments rows with
  | some s => s.parentF j
  | none => none

/-- The precondition of claim C9: every row with nonzero indent is preceded
by some row with indent `0`. -/
def ZeroLed (rows : List Nat) : Prop :=
  ∀ k, k < rows.length → rows.getD k 0 ≠ 0 → ∃ j, j < k ∧ rows.getD j 0 = 0

instance (rows : List Nat) : Decidable (ZeroLed rows) := by
  unfold ZeroLed
  infer_instance

/-- A domain node of the spec's Tree Materializer (§4.2): the looked-up
payload together with the materialized children.  The weak parent
back-reference of the source's `Comment` is modelled separately by the
parent/child relation of `BState`. -/
inductive DNode (P : Type) where
  | mk : P → List (DNode P) → DNode P

/-- Modelled from the spec: the payload store of §4.2, an association list
from IDs to payloads.  A successful lookup moves the entry out of the store
("consumes (moves ownership out of) the `payload_lookup` store entry"). -/
def lookupRemove {P : Type} (id : Nat) : List (Nat × P) → Option (P × List (Nat × P))
  | [] => none
  | (k, v) :: rest =>
    if k = id then some (v, rest)
    else
      match lookupRemove id rest with
      | none => none
      | some (p, st) => some (p, (k, v) :: st)

/-- Modelled from the spec: the Tree Materializer of §4.2, absent from the
source (in `story_details` payload extraction and shape construction are
fused).  Shape nodes are visited in pre-order; a shape ID with no payload in
the store is a `LookupError`, modelled as `Except.error` carrying the missing
ID, and it aborts the whole call. -/
def materialize {P : Type} :
    List (SubTree Nat) → List (Nat × P) → Except Nat (List (DNode P) × List (Nat × P))
  | [], store => .ok ([], store)
  | SubTree.mk id cs :: rest, store =>
    match lookupRemove id store with
    | none => .error id
    | some (payload, store₁) =>
      match materialize cs store₁ with
      | .error e => .error e
      | .ok (cs', store₂) =>
        match materialize rest store₂ with
        | .error e => .error e
        | .ok (rest', store₃) => .ok (DNode.mk payload cs' :: rest', store₃)

/-- The IDs of a shape forest, in pre-order. -/
def idsOf : List (SubTree Nat) → List Nat :=
  flattenList

/-- The pure shape of a forest of shape nodes. -/
def stripS : List (SubTree Nat) → List (SubTree Unit)
  | [] => []
  | SubTree.mk _ cs :: rest => SubTree.mk () (stripS cs) :: stripS rest

/-- The pure shape of a forest of domain nodes. -/
def stripD {P : Type} : List (DNode P) → List (SubTree Unit)
  | [] => []
  | DNode.mk _ cs :: rest => SubTree.mk () (stripD cs) :: stripD rest

theorem okFrom_mono : ∀ (l : List (Nat × Nat)) {t t' : Nat}, t ≤ t' →
    okFrom t l = true → okFrom t' l = true
  | [], _, _, _, _ => rfl
  | (i, v) :: rest, t, t', h, hok => by
    simp only [okFrom, Bool.and_eq_true, decide_eq_true_eq] at hok ⊢
    exact ⟨hok.1.trans h, hok.2⟩

theorem okFrom_takeWhile (p : Nat × Nat → Bool) : ∀ (l : List (Nat × Nat)) (t : Nat),
    okFrom t l = true → okFrom t (l.takeWhile p) = true
  | [], _, _ => rfl
  | (i, v) :: rest, t, h => by
    simp only [okFrom, Bool.and_eq_true, decide_eq_true_eq] at h
    by_cases hp : p (i, v)
    · rw [List.takeWhile_cons_of_pos hp]
      simp only [okFrom, Bool.and_eq_true, decide_eq_true_eq]
      exact ⟨h.1, okFrom_takeWhile p rest (i + 1) h.2⟩
    · rw [List.takeWhile_cons_of_neg (by simpa using hp)]
      rfl

theorem okFrom_dropWhile (t : Nat) : ∀ (l : List (Nat × Nat)) (s : Nat),
    okFrom s l = true → okFrom t (l.dropWhile fun e => decide (t + 1 ≤ e.1)) = true
  | [], _, _ => rfl
  | (i, v) :: rest, s, h => by
    simp only [okFrom, Bool.and_eq_true, decide_eq_true_eq] at h
    by_cases hi : t + 1 ≤ i
    · rw [List.dropWhile_cons_of_pos (by simpa using hi)]
      exact okFrom_dropWhile t rest (i + 1) h.2
    · rw [List.dropWhile_cons_of_neg (by simpa using hi)]
      simp only [okFrom, Bool.and_eq_true, decide_eq_true_eq]
      exact ⟨by omega, h.2⟩

theorem okFrom_suffix : ∀ (l₁ : List (Nat × Nat)) {i : Nat} {v : Nat} {l₂ : List (Nat × Nat)}
    {t : Nat}, okFrom t (l₁ ++ (i, v) :: l₂) = true → okFrom (i + 1) l₂ = true
  | [], i, v, l₂, t, h => by
    simp only [List.nil_append, okFrom, Bool.and_eq_true] at h
    exact h.2
  | (j, w) :: l₁, i, v, l₂, t, h => by
    simp only [List.cons_append, okFrom, Bool.and_eq_true] at h
    exact okFrom_suffix l₁ h.2

theorem takeWhile_split {α : Type} (p q : α → Bool) (hpq : ∀ x, q x = true → p x = true) :
    ∀ l : List α, l.takeWhile p = l.takeWhile q ++ (l.dropWhile q).takeWhile p
  | [] => rfl
  | a :: l => by
    by_cases hq : q a
    · have hp : p a = true := hpq a hq
      rw [List.takeWhile_cons_of_pos hp, List.takeWhile_cons_of_pos hq,
        List.dropWhile_cons_of_pos hq, List.cons_append, takeWhile_split p q hpq l]
    · rw [List.takeWhile_cons_of_neg hq, List.dropWhile_cons_of_neg hq, List.nil_append]

theorem make_tree_skip_all {T : Type} : ∀ (l₁ l₂ : List (Nat × T)) (t : Nat),
    (∀ e ∈ l₁, t < e.1) → make_tree (l₁ ++ l₂) t = make_tree l₂ t
  | [], _, _, _ => rfl
  | (i, v) :: l₁, l₂, t, h => by
    have hi : t < i := h (i, v) (List.mem_cons_self _ _)
    simp only [List.cons_append, make_tree]
    rw [if_neg (by omega), if_neg (by omega)]
    exact make_tree_skip_all l₁ l₂ t fun e he => h e (List.mem_cons_of_mem _ he)

theorem make_tree_cut {T : Type} : ∀ (l₁ : List (Nat × T)) {l₂ : List (Nat × T)} {t₀ : Nat}
    (t : Nat), t₀ ≤ t → (∀ e ∈ l₂.head?, e.1 < t₀) → make_tree (l₁ ++ l₂) t = make_tree l₁ t
  | [], l₂, t₀, t, ht, h2 => by
    cases l₂ with
    | nil => rfl
    | cons e l₂ =>
      obtain ⟨i, v⟩ := e
      have : i < t₀ := h2 (i, v) (by simp)
      simp only [List.nil_append, make_tree]
      rw [if_pos (by omega)]
  | (i, v) :: l₁, l₂, t₀, t, ht, h2 => by
    simp only [List.cons_append, make_tree, List.append_eq]
    by_cases h1 : i < t
    · rw [if_pos h1, if_pos h1]
    · rw [if_neg h1, if_neg h1]
      by_cases he : i = t
      · rw [if_pos he, if_pos he,
          make_tree_cut l₁ (i + 1) (by omega) h2, make_tree_cut l₁ t ht h2]
      · rw [if_neg he, if_neg he, make_tree_cut l₁ t ht h2]

theorem flatten_make_tree_aux : ∀ (n : Nat) (l : List (Nat × Nat)) (t : Nat), l.length ≤ n →
    okFrom t l = true →
    flattenList (make_tree l t) = (l.takeWhile fun e => decide (t ≤ e.1)).map Prod.snd := by
  intro n
  induction n with
  | zero =>
    intro l t hn _
    cases l with
    | nil => simp [make_tree, flattenList]
    | cons e l => simp at hn
  | succ n ih =>
    intro l t hn hok
    match l with
    | [] => simp [make_tree, flattenList]
    | (i, v) :: rest =>
      simp only [okFrom, Bool.and_eq_true, decide_eq_true_eq] at hok
      obtain ⟨hit, hrest⟩ := hok
      simp only [List.length_cons, Nat.succ_le_succ_iff] at hn
      by_cases hlt : i < t
      · have h1 : make_tree ((i, v) :: rest) t = ([] : List (SubTree Nat)) := by
          simp only [make_tree]
          rw [if_pos hlt]
        rw [h1, List.takeWhile_cons_of_neg (by simp only [decide_eq_true_eq]; omega)]
        simp [flattenList]
      · have heq : i = t := by omega
        subst heq
        have h1 : make_tree ((i, v) :: rest) i
            = SubTree.mk v (make_tree rest (i + 1)) :: make_tree rest i := by
          simp only [make_tree]
          rw [if_neg (by omega)]
          simp
        have h2 : flattenList (SubTree.mk v (make_tree rest (i + 1)) :: make_tree rest i)
            = v :: (flattenList (make_tree rest (i + 1)) ++ flattenList (make_tree rest i)) := by
          simp [flattenList]
        have hc := ih rest (i + 1) hn hrest
        have hskip : make_tree rest i
            = make_tree (rest.dropWhile fun e => decide (i + 1 ≤ e.1)) i := by
          conv_lhs => rw [← List.takeWhile_append_dropWhile (fun e => decide (i + 1 ≤ e.1)) rest]
          apply make_tree_skip_all
          intro e he
          have := List.mem_takeWhile_imp he
          simp only [decide_eq_true_eq] at this
          omega
        have hdw : (rest.dropWhile fun e => decide (i + 1 ≤ e.1)).length ≤ n :=
          le_trans (List.dropWhile_sublist _).length_le hn
        have hs := ih (rest.dropWhile fun e => decide (i + 1 ≤ e.1)) i hdw
          (okFrom_dropWhile i rest (i + 1) hrest)
        rw [h1, h2, hskip, hs, hc, List.takeWhile_cons_of_pos (by simp)]
        rw [takeWhile_split (fun e => decide (i ≤ e.1)) (fun e => decide (i + 1 ≤ e.1))
          (by intro x hx; simp only [decide_eq_true_eq] at hx ⊢; omega) rest]
        simp

/-- Under the no-gap condition at threshold `t`, the pre-order flattening of
`make_tree` is exactly the run of entries with indent at least `t`, in input
order, up to the first entry with indent below `t`. -/
theorem flatten_make_tree (l : List (Nat × Nat)) (t : Nat) (h : okFrom t l = true) :
    flattenList (make_tree l t) = (l.takeWhile fun e => decide (t ≤ e.1)).map Prod.snd :=
  flatten_make_tree_aux l.length l t le_rfl h

theorem takeWhile_zero_le : ∀ l : List (Nat × Nat), (l.takeWhile fun e => decide (0 ≤ e.1)) = l
  | [] => rfl
  | e :: l => by rw [List.takeWhile_cons_of_pos (by simp), takeWhile_zero_le l]

/-- On gap-free input the forest of `convert` enumerates, in pre-order,
exactly the input items in input order. -/
theorem flatten_convert (l : List (Nat × Nat)) (h : noGaps l = true) :
    flattenList (convert l).children = l.map Prod.snd := by
  have := flatten_make_tree l 0 h
  rw [takeWhile_zero_le] at this
  simpa [convert, Tree.new] using this

theorem countF_eq_length_flatten {T : Type} : ∀ F : List (SubTree T),
    countF F = (flattenList F).length
  | [] => by simp [countF, flattenList]
  | SubTree.mk v cs :: rest => by
    have h1 : countF (SubTree.mk v cs :: rest) = 1 + countF cs + countF rest := by simp [countF]
    have h2 : flattenList (SubTree.mk v cs :: rest)
        = v :: (flattenList cs ++ flattenList rest) := by simp [flattenList]
    rw [h1, h2, countF_eq_length_flatten cs, countF_eq_length_flatten rest]
    simp
    omega

theorem nodesF_map_val {T : Type} : ∀ F : List (SubTree T),
    (nodesF F).map SubTree.val = flattenList F
  | [] => by simp [nodesF, flattenList]
  | SubTree.mk v cs :: rest => by
    have h1 : nodesF (SubTree.mk v cs :: rest)
        = SubTree.mk v cs :: (nodesF cs ++ nodesF rest) := by simp [nodesF]
    have h2 : flattenList (SubTree.mk v cs :: rest)
        = v :: (flattenList cs ++ flattenList rest) := by simp [flattenList]
    rw [h1, h2]
    simp [nodesF_map_val cs, nodesF_map_val rest]

theorem mem_flatten_of_mem_nodesF {T : Type} (F : List (SubTree T)) {nd : SubTree T}
    (h : nd ∈ nodesF F) : nd.val ∈ flattenList F := by
  rw [← nodesF_map_val]
  exact List.mem_map_of_mem SubTree.val h

theorem flatten_make_tree_subset {T : Type} : ∀ (l : List (Nat × T)) (t : Nat) (x : T),
    x ∈ flattenList (make_tree l t) → x ∈ l.map Prod.snd
  | [], t, x, h => by simp [make_tree, flattenList] at h
  | (i, v) :: rest, t, x, h => by
    simp only [make_tree] at h
    by_cases h1 : i < t
    · rw [if_pos h1] at h
      simp [flattenList] at h
    · rw [if_neg h1] at h
      by_cases h2 : i = t
      · rw [if_pos h2] at h
        have h3 : flattenList (SubTree.mk v (make_tree rest (i + 1)) :: make_tree rest t)
            = v :: (flattenList (make_tree rest (i + 1)) ++ flattenList (make_tree rest t)) := by
          simp [flattenList]
        rw [h3] at h
        simp only [List.mem_cons, List.mem_append] at h
        rcases h with h | h | h
        · simp [h]
        · exact List.mem_cons_of_mem _ (flatten_make_tree_subset rest (i + 1) x h)
        · exact List.mem_cons_of_mem _ (flatten_make_tree_subset rest t x h)
      · rw [if_neg h2] at h
        exact List.mem_cons_of_mem _ (flatten_make_tree_subset rest t x h)

theorem make_tree_vals_sublist {T : Type} : ∀ (l : List (Nat × T)) (t : Nat),
    ((make_tree l t).map SubTree.val).Sublist (l.map Prod.snd)
  | [], _ => by simp [make_tree]
  | (i, v) :: rest, t => by
    simp only [make_tree]
    by_cases h1 : i < t
    · rw [if_pos h1]
      simp
    · rw [if_neg h1]
      by_cases h2 : i = t
      · rw [if_pos h2]
        simp only [List.map_cons, SubTree.val_mk]
        exact (make_tree_vals_sublist rest t).cons₂ v
      · rw [if_neg h2]
        exact (make_tree_vals_sublist rest t).cons v

/-- Every node of the forest `make_tree l t` is built at some entry of `l`:
its value is that entry's item, and its children are `make_tree` of the
entries following that entry at the next threshold. -/
theorem nodesF_decomp {T : Type} : ∀ (n : Nat) (l : List (Nat × T)) (t : Nat), l.length ≤ n →
    ∀ nd ∈ nodesF (make_tree l t),
      ∃ pre i rest, l = pre ++ (i, nd.val) :: rest ∧ nd.children = make_tree rest (i + 1) := by
  intro n
  induction n with
  | zero =>
    intro l t hn nd hnd
    cases l with
    | nil => simp [make_tree, nodesF] at hnd
    | cons e l => simp at hn
  | succ n ih =>
    intro l t hn nd hnd
    match l with
    | [] => simp [make_tree, nodesF] at hnd
    | (i, v) :: rest =>
      simp only [List.length_cons, Nat.succ_le_succ_iff] at hn
      simp only [make_tree] at hnd
      by_cases h1 : i < t
      · rw [if_pos h1] at hnd
        simp [nodesF] at hnd
      · rw [if_neg h1] at hnd
        by_cases h2 : i = t
        · rw [if_pos h2] at hnd
          have h3 : nodesF (SubTree.mk v (make_tree rest (i + 1)) :: make_tree rest t)
              = SubTree.mk v (make_tree rest (i + 1))
                :: (nodesF (make_tree rest (i + 1)) ++ nodesF (make_tree rest t)) := by
            simp [nodesF]
          rw [h3] at hnd
          simp only [List.mem_cons, List.mem_append] at hnd
          rcases hnd with h | h | h
          · refine ⟨[], i, rest, ?_, ?_⟩
            · rw [h]
              simp
            · rw [h]
              simp
          · obtain ⟨pre', i', rest', hl, hc⟩ := ih rest (i + 1) hn nd h
            exact ⟨(i, v) :: pre', i', rest', by rw [hl]; simp, hc⟩
          · obtain ⟨pre', i', rest', hl, hc⟩ := ih rest t hn nd h
            exact ⟨(i, v) :: pre', i', rest', by rw [hl]; simp, hc⟩
        · rw [if_neg h2] at hnd
          obtain ⟨pre', i', rest', hl, hc⟩ := ih rest t hn nd hnd
          exact ⟨(i, v) :: pre', i', rest', by rw [hl]; simp, hc⟩

theorem adjF_eq_nil : ∀ (F : List (SubTree Nat)) (j : Nat), j ∉ flattenList F → adjF F j = []
  | [], _, _ => by simp [adjF]
  | SubTree.mk v cs :: rest, j, h => by
    have h2 : flattenList (SubTree.mk v cs :: rest)
        = v :: (flattenList cs ++ flattenList rest) := by simp [flattenList]
    rw [h2] at h
    simp only [List.mem_cons, List.mem_append, not_or] at h
    have h1 : adjF (SubTree.mk v cs :: rest) j
        = (if j = v then cs.map SubTree.val else []) ++ adjF cs j ++ adjF rest j := by
      simp [adjF]
    rw [h1, if_neg h.1, adjF_eq_nil cs j h.2.1, adjF_eq_nil rest j h.2.2]
    simp

/-- With pairwise-distinct values, `adjF` at the value of a node of the
forest returns exactly that node's child values. -/
theorem adjF_of_mem_nodesF : ∀ (F : List (SubTree Nat)), (flattenList F).Nodup →
    ∀ nd ∈ nodesF F, adjF F nd.val = nd.children.map SubTree.val
  | [], _, nd, hnd => by simp [nodesF] at hnd
  | SubTree.mk v cs :: rest, hdup, nd, hnd => by
    have h2 : flattenList (SubTree.mk v cs :: rest)
        = v :: (flattenList cs ++ flattenList rest) := by simp [flattenList]
    rw [h2, List.nodup_cons, List.nodup_append] at hdup
    simp only [List.mem_append, not_or] at hdup
    obtain ⟨⟨hvcs, hvrest⟩, hcs, hrest, hdisj⟩ := hdup
    have h1 : adjF (SubTree.mk v cs :: rest) nd.val
        = (if nd.val = v then cs.map SubTree.val else []) ++ adjF cs nd.val ++ adjF rest nd.val := by
      simp [adjF]
    have h3 : nodesF (SubTree.mk v cs :: rest)
        = SubTree.mk v cs :: (nodesF cs ++ nodesF rest) := by simp [nodesF]
    rw [h3] at hnd
    simp only [List.mem_cons, List.mem_append] at hnd
    rcases hnd with h | h | h
    · rw [h1, h]
      simp only [SubTree.val_mk, SubTree.children_mk, if_pos rfl]
      rw [adjF_eq_nil cs v hvcs, adjF_eq_nil rest v hvrest]
      simp
    · have hv : nd.val ∈ flattenList cs := mem_flatten_of_mem_nodesF cs h
      rw [h1, if_neg (by intro hh; rw [hh] at hv; exact hvcs hv),
        adjF_eq_nil rest nd.val (fun hh => hdisj hv hh), adjF_of_mem_nodesF cs hcs nd h]
      simp
    · have hv : nd.val ∈ flattenList rest := mem_flatten_of_mem_nodesF rest h
      rw [h1, if_neg (by intro hh; rw [hh] at hv; exact hvrest hv),
        adjF_eq_nil cs nd.val (fun hh => hdisj hh hv), adjF_of_mem_nodesF rest hrest nd h]
      simp

theorem popTo_zero : ∀ st : List Nat, popTo st 0 = []
  | [] => rfl
  | x :: rest => by
    simp only [popTo]
    rw [if_pos (by simp)]
    exact popTo_zero rest

theorem popTo_spine : ∀ (w st : List Nat) {t : Nat}, st.length = t → popTo (w ++ st) t = st
  | [], st, t, h => by
    cases st with
    | nil =>
      simp only [List.length_nil] at h
      subst h
      rfl
    | cons x rest =>
      rw [List.nil_append]
      simp only [popTo]
      rw [if_neg (by omega)]
  | a :: w, st, t, h => by
    rw [List.cons_append]
    simp only [popTo]
    rw [if_pos (by simp only [List.length_cons, List.length_append]; omega)]
    exact popTo_spine w st h

theorem popTo_nonempty : ∀ (st : List Nat) (t : Nat), st ≠ [] → 1 ≤ t → popTo st t ≠ []
  | [], _, h, _ => absurd rfl h
  | x :: rest, t, _, ht => by
    simp only [popTo]
    by_cases hc : t < (x :: rest).length
    · rw [if_pos hc]
      cases rest with
      | nil =>
        simp only [List.length_cons, List.length_nil] at hc
        omega
      | cons y r =>
        exact popTo_nonempty (y :: r) t (by simp) ht
    · rw [if_neg hc]
      simp

theorem comment_step_zero (s : BState) (id : Nat) :
    comment_step s 0 id = some
      { comments := s.comments ++ [id], stack := id :: popTo s.stack 0
        childrenF := s.childrenF, parentF := s.parentF } := by
  simp [comment_step]

theorem comment_step_pos (s : BState) {ind : Nat} (id : Nat) (h : ind ≠ 0) {p : Nat}
    {r : List Nat} (hpop : popTo s.stack ind = p :: r) :
    comment_step s ind id = some
      { comments := s.comments, stack := id :: p :: r
        childrenF := fun j => if j = p then s.childrenF p ++ [id] else s.childrenF j
        parentF := fun j => if j = id then some p else s.parentF j } := by
  simp [comment_step, h, hpop]

theorem comment_step_panic (s : BState) {ind : Nat} (id : Nat) (h : ind ≠ 0)
    (hpop : popTo s.stack ind = []) : comment_step s ind id = none := by
  simp [comment_step, h, hpop]

/-- Once the parent stack is nonempty it stays nonempty, and the loop can
never reach the `unwrap` panic. -/
theorem comment_loop_total : ∀ (l : List (Nat × Nat)) (s : BState), s.stack ≠ [] →
    ∃ s', comment_loop s l = some s' ∧ s'.stack ≠ []
  | [], s, h => ⟨s, rfl, h⟩
  | (ind, id) :: rest, s, h => by
    by_cases h0 : ind = 0
    · subst h0
      simp only [comment_loop, comment_step_zero]
      exact comment_loop_total rest _ (by simp)
    · obtain ⟨p, r, hpr⟩ : ∃ p r, popTo s.stack ind = p :: r := by
        cases hp : popTo s.stack ind with
        | nil => exact absurd hp (popTo_nonempty s.stack ind h (by omega))
        | cons p r => exact ⟨p, r, rfl⟩
      simp only [comment_loop, comment_step_pos s id h0 hpr]
      exact comment_loop_total rest _ (by simp)

/-- The parent/child consistency invariant of the loop state: whenever a
comment records a parent, that parent's `children` vector contains it. -/
def ParentChild (s : BState) : Prop :=
  ∀ i p, s.parentF i = some p → i ∈ s.childrenF p

theorem comment_step_inv {s s' : BState} {ind id : Nat}
    (h : comment_step s ind id = some s') (hs : ParentChild s) : ParentChild s' := by
  by_cases h0 : ind = 0
  · subst h0
    rw [comment_step_zero] at h
    obtain rfl := Option.some_injective _ h
    exact hs
  · cases hpop : popTo s.stack ind with
    | nil => rw [comment_step_panic s id h0 hpop] at h; exact absurd h (by simp)
    | cons p r =>
      rw [comment_step_pos s id h0 hpop] at h
      obtain rfl := Option.some_injective _ h
      intro i q hq
      simp only at hq ⊢
      by_cases hiq : i = id
      · subst hiq
        rw [if_pos rfl] at hq
        obtain rfl := Option.some_injective _ hq
        rw [if_pos rfl]
        simp
      · rw [if_neg hiq] at hq
        have := hs i q hq
        by_cases hqp : q = p
        · subst hqp
          rw [if_pos rfl]
          simp only [List.mem_append]
          exact Or.inl this
        · rw [if_neg hqp]
          exact this

theorem comment_loop_inv : ∀ (l : List (Nat × Nat)) (s s' : BState),
    comment_loop s l = some s' → ParentChild s → ParentChild s'
  | [], s, s', h, hs => by
    obtain rfl : s = s' := Option.some_injective _ h
    exact hs
  | (ind, id) :: rest, s, s', h, hs => by
    simp only [comment_loop] at h
    cases hstep : comment_step s ind id with
    | none => rw [hstep] at h; exact absurd h (by simp)
    | some s₁ =>
      rw [hstep] at h
      exact comment_loop_inv rest s₁ s' h (comment_step_inv hstep hs)

theorem geAll_sublist {t : Nat} {l l' : List (Nat × Nat)} (h : l'.Sublist l)
    (hg : geAll t l = true) : geAll t l' = true := by
  simp only [geAll, List.all_eq_true] at hg ⊢
  exact fun e he => hg e (h.subset he)

theorem head_dropWhile_lt (t : Nat) : ∀ l : List (Nat × Nat),
    ∀ e ∈ ((l.dropWhile fun e => decide (t + 1 ≤ e.1)).head?), e.1 < t + 1
  | [], e, h => by simp at h
  | (i, v) :: rest, e, h => by
    by_cases hc : t + 1 ≤ i
    · rw [List.dropWhile_cons_of_pos (by simpa using hc)] at h
      exact head_dropWhile_lt t rest e h
    · rw [List.dropWhile_cons_of_neg (by simpa using hc)] at h
      simp only [List.head?_cons, Option.mem_def, Option.some_inj] at h
      subst h
      simpa using by omega

theorem comment_loop_append : ∀ (l₁ l₂ : List (Nat × Nat)) (s s₁ : BState),
    comment_loop s l₁ = some s₁ → comment_loop s (l₁ ++ l₂) = comment_loop s₁ l₂
  | [], l₂, s, s₁, h => by
    obtain rfl : s = s₁ := Option.some_injective _ h
    rfl
  | (ind, id) :: rest, l₂, s, s₁, h => by
    simp only [comment_loop] at h
    rw [List.cons_append]
    simp only [comment_loop]
    cases hstep : comment_step s ind id with
    | none => rw [hstep] at h; exact absurd h (by simp)
    | some s₀ =>
      rw [hstep] at h
      exact comment_loop_append rest l₂ s₀ s₁ h

/-- Processing a block of entries with indents at least `t` (first exactly
`t`, no forward gaps) with a parent spine of length `t` on the stack appends
exactly the `make_tree` forest of the block under the stack's top `p`: the
block's level-`t` ids become children of `p` in order, and the deeper
adjacency is the forest's. -/
theorem comment_loop_block : ∀ (n : Nat) (l : List (Nat × Nat)) (t : Nat) (s : BState)
    (w₀ below : List Nat) (p : Nat), l.length ≤ n →
    blockOk t l = true →
    s.stack = w₀ ++ p :: below → (p :: below).length = t →
    (l.map Prod.snd).Nodup → p ∉ l.map Prod.snd →
    ∃ s', comment_loop s l = some s' ∧
      s'.comments = s.comments ∧
      (∃ w, s'.stack = w ++ p :: below) ∧
      ∀ j, s'.childrenF j = s.childrenF j
        ++ (if j = p then (make_tree l t).map SubTree.val else [])
        ++ adjF (make_tree l t) j := by
  intro n
  induction n with
  | zero =>
    intro l t s w₀ below p hn hB hst hlen hnd hp
    match l with
    | [] =>
      refine ⟨s, rfl, rfl, ⟨w₀, hst⟩, ?_⟩
      intro j
      simp [make_tree, adjF]
    | e :: l => simp at hn
  | succ n ih =>
    intro l t s w₀ below p hn hB hst hlen hnd hp
    match l with
    | [] =>
      refine ⟨s, rfl, rfl, ⟨w₀, hst⟩, ?_⟩
      intro j
      simp [make_tree, adjF]
    | (i, v) :: rest =>
      simp only [blockOk, Bool.and_eq_true] at hB
      obtain ⟨hge, hok⟩ := hB
      have hgrest : geAll t rest = true := by
        simp only [geAll, List.all_eq_true] at hge ⊢
        exact fun e he => hge e (List.mem_cons_of_mem _ he)
      have hit : i = t := by
        simp only [geAll, List.all_eq_true] at hge
        have h1 := hge (i, v) (List.mem_cons_self _ _)
        simp only [okFrom, Bool.and_eq_true, decide_eq_true_eq] at hok h1
        omega
      subst hit
      simp only [okFrom, Bool.and_eq_true, decide_eq_true_eq] at hok
      have hokrest : okFrom (i + 1) rest = true := hok.2
      have ht1 : 1 ≤ i := by
        simp only [List.length_cons] at hlen
        omega
      simp only [List.map_cons, List.nodup_cons] at hnd
      obtain ⟨hvrest, hndrest⟩ := hnd
      simp only [List.map_cons, List.mem_cons, not_or] at hp
      obtain ⟨hpv, hprest⟩ := hp
      simp only [List.length_cons, Nat.succ_le_succ_iff] at hn
      -- the step for the level-t row (i, v)
      have hpop : popTo s.stack i = p :: below := by
        rw [hst]
        exact popTo_spine w₀ (p :: below) hlen
      have hstep := comment_step_pos s v (by omega) hpop
      -- split the remaining rows into the sub-block B of strictly deeper
      -- rows and the remainder D
      set B := rest.takeWhile (fun e => decide (i + 1 ≤ e.1)) with hBdef
      set D := rest.dropWhile (fun e => decide (i + 1 ≤ e.1)) with hDdef
      have hBD : B ++ D = rest := List.takeWhile_append_dropWhile _ _
      have hBsub : B.Sublist rest := List.takeWhile_sublist _
      have hDsub : D.Sublist rest := List.dropWhile_sublist _
      have hBlen : B.length ≤ n := le_trans hBsub.length_le hn
      have hDlen : D.length ≤ n := le_trans hDsub.length_le hn
      have hBblock : blockOk (i + 1) B = true := by
        simp only [blockOk, Bool.and_eq_true]
        constructor
        · simp only [geAll, List.all_eq_true]
          intro e he
          have he' : e ∈ rest.takeWhile (fun e => decide (i + 1 ≤ e.1)) := hBdef ▸ he
          have := List.mem_takeWhile_imp he'
          simpa using this
        · exact okFrom_takeWhile _ rest (i + 1) hokrest
      have hDblock : blockOk i D = true := by
        simp only [blockOk, Bool.and_eq_true]
        exact ⟨geAll_sublist hDsub hgrest, okFrom_dropWhile i rest (i + 1) hokrest⟩
      have hBnd : (B.map Prod.snd).Nodup := (hBsub.map Prod.snd).nodup hndrest
      have hDnd : (D.map Prod.snd).Nodup := (hDsub.map Prod.snd).nodup hndrest
      have hvB : v ∉ B.map Prod.snd := fun hh => hvrest ((hBsub.map Prod.snd).subset hh)
      have hpD : p ∉ D.map Prod.snd := fun hh => hprest ((hDsub.map Prod.snd).subset hh)
      -- the forest of the block
      have hF1 : make_tree rest (i + 1) = make_tree B (i + 1) := by
        conv_lhs => rw [← hBD]
        exact make_tree_cut B (i + 1) le_rfl (head_dropWhile_lt i rest)
      have hF2 : make_tree rest i = make_tree D i := by
        conv_lhs => rw [← hBD]
        apply make_tree_skip_all
        intro e he
        have := List.mem_takeWhile_imp he
        simp only [decide_eq_true_eq] at this
        omega
      have hF : make_tree ((i, v) :: rest) i
          = SubTree.mk v (make_tree B (i + 1)) :: make_tree D i := by
        have h0 : make_tree ((i, v) :: rest) i
            = SubTree.mk v (make_tree rest (i + 1)) :: make_tree rest i := by
          simp only [make_tree]
          rw [if_neg (by omega)]
          simp
        rw [h0, hF1, hF2]
      -- run the sub-block
      obtain ⟨s₂, hrun₂, hcom₂, ⟨w₁, hst₂⟩, hch₂⟩ := ih B (i + 1)
        { comments := s.comments, stack := v :: p :: below
          childrenF := fun j => if j = p then s.childrenF p ++ [v] else s.childrenF j
          parentF := fun j => if j = v then some p else s.parentF j }
        [] (p :: below) v hBlen hBblock rfl (by simp only [List.length_cons] at hlen ⊢; omega)
        hBnd hvB
      -- run the remainder
      obtain ⟨s₃, hrun₃, hcom₃, ⟨w₂, hst₃⟩, hch₃⟩ := ih D i s₂ (w₁ ++ [v]) below p hDlen hDblock
        (by rw [hst₂]; simp) hlen hDnd hpD
      refine ⟨s₃, ?_, ?_, ⟨w₂, hst₃⟩, ?_⟩
      · simp only [comment_loop, hstep]
        rw [show rest = B ++ D from hBD.symm]
        exact (comment_loop_append B D _ s₂ hrun₂).trans hrun₃
      · rw [hcom₃, hcom₂]
      · intro j
        have hadj : adjF (SubTree.mk v (make_tree B (i + 1)) :: make_tree D i) j
            = (if j = v then (make_tree B (i + 1)).map SubTree.val else [])
              ++ adjF (make_tree B (i + 1)) j ++ adjF (make_tree D i) j := by
          simp [adjF]
        rw [hch₃ j, hch₂ j, hF, hadj]
        by_cases hjp : j = p
        · rw [hjp]
          have hanil : adjF (make_tree B (i + 1)) p = [] := by
            apply adjF_eq_nil
            intro hh
            exact hprest ((hBsub.map Prod.snd).subset (flatten_make_tree_subset B (i + 1) p hh))
          simp [hpv, hanil, List.append_assoc]
        · simp [hjp, List.append_assoc]

/-- On gap-free rows with distinct ids the whole comment loop succeeds, its
root comments are the values of `make_tree` at threshold `0` in order, and
each comment's `children` vector is given by the forest's adjacency. -/
theorem comment_loop_top : ∀ (n : Nat) (l : List (Nat × Nat)) (s : BState), l.length ≤ n →
    okFrom 0 l = true → (l.map Prod.snd).Nodup →
    ∃ s', comment_loop s l = some s' ∧
      s'.comments = s.comments ++ (make_tree l 0).map SubTree.val ∧
      ∀ j, s'.childrenF j = s.childrenF j ++ adjF (make_tree l 0) j := by
  intro n
  induction n with
  | zero =>
    intro l s hn hok hnd
    match l with
    | [] =>
      refine ⟨s, rfl, by simp [make_tree], ?_⟩
      intro j
      simp [make_tree, adjF]
    | e :: l => simp at hn
  | succ n ih =>
    intro l s hn hok hnd
    match l with
    | [] =>
      refine ⟨s, rfl, by simp [make_tree], ?_⟩
      intro j
      simp [make_tree, adjF]
    | (i, v) :: rest =>
      simp only [okFrom, Bool.and_eq_true, decide_eq_true_eq] at hok
      have hi0 : i = 0 := by omega
      subst hi0
      have hokrest : okFrom (0 + 1) rest = true := hok.2
      simp only [List.map_cons, List.nodup_cons] at hnd
      obtain ⟨hvrest, hndrest⟩ := hnd
      simp only [List.length_cons, Nat.succ_le_succ_iff] at hn
      set B := rest.takeWhile (fun e => decide (0 + 1 ≤ e.1)) with hBdef
      set D := rest.dropWhile (fun e => decide (0 + 1 ≤ e.1)) with hDdef
      have hBD : B ++ D = rest := List.takeWhile_append_dropWhile _ _
      have hBsub : B.Sublist rest := List.takeWhile_sublist _
      have hDsub : D.Sublist rest := List.dropWhile_sublist _
      have hBlen : B.length ≤ n := le_trans hBsub.length_le hn
      have hDlen : D.length ≤ n := le_trans hDsub.length_le hn
      have hBblock : blockOk (0 + 1) B = true := by
        simp only [blockOk, Bool.and_eq_true]
        constructor
        · simp only [geAll, List.all_eq_true]
          intro e he
          have he' : e ∈ rest.takeWhile (fun e => decide (0 + 1 ≤ e.1)) := hBdef ▸ he
          have := List.mem_takeWhile_imp he'
          simpa using this
        · exact okFrom_takeWhile _ rest (0 + 1) hokrest
      have hDok : okFrom 0 D = true := okFrom_dropWhile 0 rest (0 + 1) hokrest
      have hBnd : (B.map Prod.snd).Nodup := (hBsub.map Prod.snd).nodup hndrest
      have hDnd : (D.map Prod.snd).Nodup := (hDsub.map Prod.snd).nodup hndrest
      have hvB : v ∉ B.map Prod.snd := fun hh => hvrest ((hBsub.map Prod.snd).subset hh)
      have hF1 : make_tree rest (0 + 1) = make_tree B (0 + 1) := by
        conv_lhs => rw [← hBD]
        exact make_tree_cut B (0 + 1) le_rfl (head_dropWhile_lt 0 rest)
      have hF2 : make_tree rest 0 = make_tree D 0 := by
        conv_lhs => rw [← hBD]
        apply make_tree_skip_all
        intro e he
        have he' : e ∈ rest.takeWhile (fun e => decide (0 + 1 ≤ e.1)) := hBdef ▸ he
        have := List.mem_takeWhile_imp he'
        simp only [decide_eq_true_eq] at this
        omega
      have hF : make_tree ((0, v) :: rest) 0
          = SubTree.mk v (make_tree B (0 + 1)) :: make_tree D 0 := by
        have h0 : make_tree ((0, v) :: rest) 0
            = SubTree.mk v (make_tree rest (0 + 1)) :: make_tree rest 0 := by
          simp only [make_tree]
          rw [if_neg (by omega)]
          simp
        rw [h0, hF1, hF2]
      have hstep := comment_step_zero s v
      obtain ⟨s₂, hrun₂, hcom₂, hstk₂, hch₂⟩ := comment_loop_block n B (0 + 1)
        { comments := s.comments ++ [v], stack := v :: popTo s.stack 0
          childrenF := s.childrenF, parentF := s.parentF }
        [] [] v hBlen hBblock (by rw [popTo_zero]; rfl) rfl hBnd hvB
      obtain ⟨s₃, hrun₃, hcom₃, hch₃⟩ := ih D s₂ hDlen hDok hDnd
      refine ⟨s₃, ?_, ?_, ?_⟩
      · have h0 : comment_loop s ((0, v) :: rest) = comment_loop
            { comments := s.comments ++ [v], stack := v :: popTo s.stack 0
              childrenF := s.childrenF, parentF := s.parentF } rest := by
          simp only [comment_loop, hstep]
        rw [h0, show rest = B ++ D from hBD.symm]
        exact (comment_loop_append B D _ s₂ hrun₂).trans hrun₃
      · rw [hcom₃, hcom₂, hF]
        simp [List.append_assoc]
      · intro j
        have hadj : adjF (SubTree.mk v (make_tree B (0 + 1)) :: make_tree D 0) j
            = (if j = v then (make_tree B (0 + 1)).map SubTree.val else [])
              ++ adjF (make_tree B (0 + 1)) j ++ adjF (make_tree D 0) j := by
          simp [adjF]
        rw [hch₃ j, hch₂ j, hF, hadj]
        simp [List.append_assoc]

theorem lookupRemove_mem {P : Type} {id : Nat} : ∀ (st : List (Nat × P)) {pl : P}
    {st' : List (Nat × P)}, lookupRemove id st = some (pl, st') → id ∈ st.map Prod.fst
  | [], pl, st', h => by simp [lookupRemove] at h
  | (k, v) :: rest, pl, st', h => by
    simp only [lookupRemove] at h
    by_cases hk : k = id
    · simp [hk]
    · rw [if_neg hk] at h
      cases hrec : lookupRemove id rest with
      | none => rw [hrec] at h; exact absurd h (by simp)
      | some pr =>
        obtain ⟨pl', st''⟩ := pr
        simp only [List.map_cons, List.mem_cons]
        exact Or.inr (lookupRemove_mem rest hrec)

theorem lookupRemove_keys_subset {P : Type} {id : Nat} : ∀ (st : List (Nat × P)) {pl : P}
    {st' : List (Nat × P)}, lookupRemove id st = some (pl, st') →
      st'.map Prod.fst ⊆ st.map Prod.fst
  | [], pl, st', h => by simp [lookupRemove] at h
  | (k, v) :: rest, pl, st', h => by
    simp only [lookupRemove] at h
    by_cases hk : k = id
    · rw [if_pos hk] at h
      simp only [Option.some_inj, Prod.mk.injEq] at h
      rw [← h.2]
      intro x hx
      exact List.mem_cons_of_mem _ hx
    · rw [if_neg hk] at h
      cases hrec : lookupRemove id rest with
      | none => rw [hrec] at h; exact absurd h (by simp)
      | some pr =>
        obtain ⟨pl', st''⟩ := pr
        rw [hrec] at h
        simp only [Option.some_inj, Prod.mk.injEq] at h
        rw [← h.2]
        intro x hx
        simp only [List.map_cons, List.mem_cons] at hx ⊢
        rcases hx with hx | hx
        · exact Or.inl hx
        · exact Or.inr (lookupRemove_keys_subset rest hrec hx)

theorem materialize_keys_subset {P : Type} : ∀ (F : List (SubTree Nat)) (st : List (Nat × P))
    {ts : List (DNode P)} {st' : List (Nat × P)},
    materialize F st = .ok (ts, st') → st'.map Prod.fst ⊆ st.map Prod.fst
  | [], st, ts, st', h => by
    simp only [materialize, Except.ok.injEq, Prod.mk.injEq] at h
    rw [← h.2]
    exact fun x hx => hx
  | SubTree.mk k cs :: rest, st, ts, st', h => by
    simp only [materialize] at h
    cases hlk : lookupRemove k st with
    | none => simp [hlk] at h
    | some pr =>
      obtain ⟨pl, st₁⟩ := pr
      cases hcs : materialize cs st₁ with
      | error e => simp [hlk, hcs] at h
      | ok r =>
        obtain ⟨cs', st₂⟩ := r
        cases hrest : materialize rest st₂ with
        | error e => simp [hlk, hcs, hrest] at h
        | ok r₂ =>
          obtain ⟨rest', st₃⟩ := r₂
          simp only [hlk, hcs, hrest, Except.ok.injEq, Prod.mk.injEq] at h
          rw [← h.2]
          exact fun x hx => lookupRemove_keys_subset st hlk
            (materialize_keys_subset cs st₁ hcs (materialize_keys_subset rest st₂ hrest hx))

/-- If some ID of the shape forest has no payload in the store, `materialize`
signals a `LookupError`: it returns `Except.error` and hence no tree at all,
partial or otherwise. -/
theorem materialize_error_of_missing {P : Type} : ∀ (F : List (SubTree Nat))
    (st : List (Nat × P)) (id : Nat), id ∈ flattenList F → id ∉ st.map Prod.fst →
    ∃ e, materialize F st = .error e
  | [], st, id, hid, hst => by simp [flattenList] at hid
  | SubTree.mk k cs :: rest, st, id, hid, hst => by
    have hfl : flattenList (SubTree.mk k cs :: rest)
        = k :: (flattenList cs ++ flattenList rest) := by simp [flattenList]
    rw [hfl] at hid
    simp only [List.mem_cons, List.mem_append] at hid
    cases hlk : lookupRemove k st with
    | none =>
      refine ⟨k, ?_⟩
      simp [materialize, hlk]
    | some pr =>
      obtain ⟨pl, st₁⟩ := pr
      have hk : id ≠ k := by
        intro hh
        subst hh
        exact hst (lookupRemove_mem st hlk)
      rcases hid with hid | hid | hid
      · exact absurd hid hk
      · have hst₁ : id ∉ st₁.map Prod.fst := fun hh => hst (lookupRemove_keys_subset st hlk hh)
        obtain ⟨e, he⟩ := materialize_error_of_missing cs st₁ id hid hst₁
        refine ⟨e, ?_⟩
        simp [materialize, hlk, he]
      · cases hcs : materialize cs st₁ with
        | error e =>
          refine ⟨e, ?_⟩
          simp [materialize, hlk, hcs]
        | ok r =>
          obtain ⟨cs', st₂⟩ := r
          have hst₂ : id ∉ st₂.map Prod.fst := fun hh =>
            hst (lookupRemove_keys_subset st hlk (materialize_keys_subset cs st₁ hcs hh))
          obtain ⟨e, he⟩ := materialize_error_of_missing rest st₂ id hid hst₂
          refine ⟨e, ?_⟩
          simp [materialize, hlk, hcs, he]

/-- A successful `materialize` mirrors the shape exactly: no subtree is
dropped anywhere. -/
theorem materialize_shape {P : Type} : ∀ (F : List (SubTree Nat)) (st : List (Nat × P))
    {ts : List (DNode P)} {st' : List (Nat × P)},
    materialize F st = .ok (ts, st') → stripD ts = stripS F
  | [], st, ts, st', h => by
    simp only [materialize, Except.ok.injEq, Prod.mk.injEq] at h
    rw [← h.1]
    simp [stripD, stripS]
  | SubTree.mk k cs :: rest, st, ts, st', h => by
    simp only [materialize] at h
    cases hlk : lookupRemove k st with
    | none => simp [hlk] at h
    | some pr =>
      obtain ⟨pl, st₁⟩ := pr
      cases hcs : materialize cs st₁ with
      | error e => simp [hlk, hcs] at h
      | ok r =>
        obtain ⟨cs', st₂⟩ := r
        cases hrest : materialize rest st₂ with
        | error e => simp [hlk, hcs, hrest] at h
        | ok r₂ =>
          obtain ⟨rest', st₃⟩ := r₂
          simp only [hlk, hcs, hrest, Except.ok.injEq, Prod.mk.injEq] at h
          rw [← h.1]
          have h1 : stripD (DNode.mk pl cs' :: rest')
              = SubTree.mk () (stripD cs') :: stripD rest' := by simp [stripD]
          have h2 : stripS (SubTree.mk k cs :: rest)
              = SubTree.mk () (stripS cs) :: stripS rest := by simp [stripS]
          rw [h1, h2, materialize_shape cs st₁ hcs, materialize_shape rest st₂ hrest]

/-- C1, counterexample: on `[(0,0),(2,1),(1,2)]` the claimed stop-on-gap
policy gives the node `0` no children, but `make_tree` gives it the child
`2`: on a gap the loop does not stop as for an indent below the threshold. -/
theorem claim1_counterexample :
    (convert [(0, 0), (2, 1), (1, 2)]).children = [SubTree.mk 0 [SubTree.mk 2 []]] ∧
    (convertStop [(0, 0), (2, 1), (1, 2)]).children = [SubTree.mk 0 []] ∧
    (convert [(0, 0), (2, 1), (1, 2)]).children ≠ (convertStop [(0, 0), (2, 1), (1, 2)]).children := by
  refine ⟨rfl, rfl, ?_⟩
  intro h
  rw [show (convert [(0, 0), (2, 1), (1, 2)]).children = [SubTree.mk 0 [SubTree.mk 2 []]] from rfl,
    show (convertStop [(0, 0), (2, 1), (1, 2)]).children = [SubTree.mk 0 []] from rfl] at h
  simp at h

/-- C1, amended: when the next entry's indent is strictly greater than the
threshold, the loop neither breaks nor pushes: it skips the entry and keeps
scanning at the same threshold, so the gap entry is dropped from the level
(and, if its item occurs nowhere later, from the whole tree), while later
entries of the run still become children at this level — unlike the
stop-as-for-smaller-indent policy. -/
theorem claim1_gap_skip {T : Type} (t i : Nat) (v : T) (rest : List (Nat × T)) (h : t < i) :
    make_tree ((i, v) :: rest) t = make_tree rest t ∧
    (v ∉ rest.map Prod.snd → v ∉ flattenList (make_tree ((i, v) :: rest) t)) := by
  have h1 : make_tree ((i, v) :: rest) t = make_tree rest t := by
    simp only [make_tree]
    rw [if_neg (by omega), if_neg (by omega)]
  refine ⟨h1, ?_⟩
  intro hv hmem
  rw [h1] at hmem
  exact hv (flatten_make_tree_subset rest t v hmem)

theorem claim1_gap_skip_witness :
    (1 : Nat) < 2 ∧
    (make_tree [(2, 5)] 1 = make_tree ([] : List (Nat × Nat)) 1 ∧
      ((5 : Nat) ∉ ([] : List (Nat × Nat)).map Prod.snd →
        (5 : Nat) ∉ flattenList (make_tree [(2, 5)] 1))) :=
  ⟨by decide, claim1_gap_skip 1 2 5 [] (by decide)⟩

/-- C2, counterexample: on `[(0,0),(2,1),(1,2)]` the node `0` of the forest
has subtree items `[2]`, but the maximal contiguous run of entries after its
entry with indent strictly greater than `0` is `[1, 2]` — the claim fails on
inputs with an indent gap. -/
theorem claim2_counterexample :
    (convert [(0, 0), (2, 1), (1, 2)]).children = [SubTree.mk 0 [SubTree.mk 2 []]] ∧
    flattenList (SubTree.mk 0 [SubTree.mk 2 []]).children = [2] ∧
    (([(2, 1), (1, 2)] : List (Nat × Nat)).takeWhile fun e => decide (0 < e.1)).map Prod.snd
      = [1, 2] ∧
    ([2] : List Nat) ≠ [1, 2] := by
  refine ⟨rfl, by simp [flattenList], by decide, by decide⟩

/-- C2, amended: on gap-free input, every node of the forest arises at an
entry of the input, and its subtree below it holds exactly the items of the
maximal contiguous run of subsequent entries with indent strictly greater
than the node's indent, up to (and excluding) the next entry with indent at
most the node's indent — in input order. -/
theorem claim2_subtree_run (l : List (Nat × Nat)) (h : noGaps l = true) (nd : SubTree Nat)
    (hnd : nd ∈ nodesF (convert l).children) :
    ∃ pre i rest, l = pre ++ (i, nd.val) :: rest ∧
      flattenList nd.children = (rest.takeWhile fun e => decide (i < e.1)).map Prod.snd := by
  have hnd' : nd ∈ nodesF (make_tree l 0) := hnd
  obtain ⟨pre, i, rest, hl, hc⟩ := nodesF_decomp l.length l 0 le_rfl nd hnd'
  have hok : okFrom (i + 1) rest = true := by
    rw [hl] at h
    exact okFrom_suffix pre h
  refine ⟨pre, i, rest, hl, ?_⟩
  rw [hc, flatten_make_tree rest (i + 1) hok]
  have hpred : (fun e : Nat × Nat => decide (i < e.1)) = fun e => decide (i + 1 ≤ e.1) := by
    funext e
    simp [Nat.lt_iff_add_one_le]
  rw [hpred]

theorem claim2_subtree_run_witness :
    noGaps [(0, 10), (1, 11)] = true ∧
    ∃ pre i rest, [(0, 10), (1, 11)] = pre ++ (i, (SubTree.mk 10 [SubTree.mk 11 []]).val) :: rest ∧
      flattenList (SubTree.mk 10 [SubTree.mk 11 []]).children
        = (rest.takeWhile fun e => decide (i < e.1)).map Prod.snd :=
  ⟨by decide, claim2_subtree_run [(0, 10), (1, 11)] (by decide) (SubTree.mk 10 [SubTree.mk 11 []])
    (by simp [convert, Tree.new, make_tree, nodesF])⟩

/-- C3: on input with no indent gaps, the forest has exactly one node per
input entry (its pre-order flattening is the input's items in order), so the
node count equals the input length and distinct items stay distinct. -/
theorem claim3_node_count (l : List (Nat × Nat)) (h : noGaps l = true) :
    countF (convert l).children = l.length ∧
    flattenList (convert l).children = l.map Prod.snd ∧
    ((l.map Prod.snd).Nodup → (flattenList (convert l).children).Nodup) := by
  have hfl : flattenList (convert l).children = l.map Prod.snd := flatten_convert l h
  refine ⟨?_, hfl, ?_⟩
  · rw [countF_eq_length_flatten, hfl, List.length_map]
  · intro hd
    rw [hfl]
    exact hd

theorem claim3_node_count_witness :
    countF (convert [(0, 5), (1, 7), (1, 9)]).children = [(0, 5), (1, 7), (1, 9)].length ∧
    (flattenList (convert [(0, 5), (1, 7), (1, 9)]).children).Nodup :=
  ⟨(claim3_node_count [(0, 5), (1, 7), (1, 9)] (by decide)).1,
    (claim3_node_count [(0, 5), (1, 7), (1, 9)] (by decide)).2.2 (by decide)⟩

/-- C4: for every input, the sequence of root values and the sequence of any
node's child values appear as a subsequence of the input items, in the
input's relative order — sibling order is input order. -/
theorem claim4_sibling_order {T : Type} (l : List (Nat × T)) :
    ((convert l).children.map SubTree.val).Sublist (l.map Prod.snd) ∧
    ∀ nd ∈ nodesF (convert l).children,
      (nd.children.map SubTree.val).Sublist (l.map Prod.snd) := by
  constructor
  · exact make_tree_vals_sublist l 0
  · intro nd hnd
    obtain ⟨pre, i, rest, hl, hc⟩ := nodesF_decomp l.length l 0 le_rfl nd hnd
    rw [hc]
    have h1 : (rest.map Prod.snd).Sublist (l.map Prod.snd) := by
      rw [hl]
      exact ((List.sublist_cons_self _ _).trans (List.sublist_append_right pre _)).map Prod.snd
    exact (make_tree_vals_sublist rest (i + 1)).trans h1

theorem claim4_sibling_order_witness :
    (((convert [(0, 3), (1, 4)]).children.map SubTree.val).Sublist
      ([(0, 3), (1, 4)].map Prod.snd)) ∧
    (((SubTree.mk 3 [SubTree.mk 4 []]).children.map SubTree.val).Sublist
      ([(0, 3), (1, 4)].map Prod.snd)) :=
  ⟨(claim4_sibling_order [(0, 3), (1, 4)]).1,
    (claim4_sibling_order [(0, 3), (1, 4)]).2 (SubTree.mk 3 [SubTree.mk 4 []])
      (by simp [convert, Tree.new, make_tree, nodesF])⟩

/-- C5: `convert` is a total function (it is defined by structural recursion
below, so it terminates on every finite input); the empty input yields a
forest with zero roots, a singleton `(0, a)` yields the single childless root
`a`, and at a threshold above every indent present no node is built, which
bounds the recursion depth by the maximum indent. -/
theorem claim5_total :
    (∀ T : Type, convert ([] : List (Nat × T)) = Tree.new []) ∧
    (∀ (T : Type) (a : T), convert [(0, a)] = Tree.new [SubTree.new a []]) ∧
    (∀ (T : Type) (l : List (Nat × T)) (t : Nat), (∀ e ∈ l, e.1 < t) → make_tree l t = []) := by
  refine ⟨fun T => rfl, fun T a => rfl, ?_⟩
  intro T l t hl
  cases l with
  | nil => rfl
  | cons e l =>
    obtain ⟨i, v⟩ := e
    simp only [make_tree]
    rw [if_pos (hl (i, v) (List.mem_cons_self _ _))]

theorem claim5_total_witness :
    (∀ e ∈ ([(0, 7)] : List (Nat × Nat)), e.1 < 3) ∧ make_tree [(0, 7)] 3 = [] :=
  ⟨by decide, claim5_total.2.2 Nat [(0, 7)] 3 (by decide)⟩

/-- C6: after the comment loop of `story_details` completes, every comment
whose `parent` back-reference is set points at a comment whose `children`
vector contains it (identities are row positions, modelling `Rc` identity). -/
theorem claim6_parent_child (rows : List Nat) (i p : Nat)
    (h : parentOf rows i = some p) : i ∈ childrenOf rows p := by
  unfold parentOf at h
  unfold childrenOf
  cases hb : build_comments rows with
  | none => rw [hb] at h; exact absurd h (by simp)
  | some s =>
    rw [hb] at h
    have hinv : ParentChild s := by
      apply comment_loop_inv (decRows rows) initState s hb
      intro a b hab
      simp [initState] at hab
    exact hinv i p h

theorem claim6_parent_child_witness :
    parentOf [0, 1] 1 = some 0 ∧ 1 ∈ childrenOf [0, 1] 0 :=
  ⟨by decide, claim6_parent_child [0, 1] 1 0 (by decide)⟩

/-- C7: the literal regression case: `convert` on the P4 input returns roots
`[a, g, j]` with `a`'s children `[b, d]`, `b`'s child `[c]`, `d`'s children
`[e, f]`, `g`'s children `[h, i]`, and `j` childless. -/
theorem claim7_regression :
    convert [(0, 'a'), (1, 'b'), (2, 'c'), (1, 'd'), (2, 'e'), (2, 'f'), (0, 'g'), (1, 'h'),
        (1, 'i'), (0, 'j')]
      = Tree.new [
        SubTree.new 'a' [
          SubTree.new 'b' [SubTree.new 'c' []],
          SubTree.new 'd' [SubTree.new 'e' [], SubTree.new 'f' []]],
        SubTree.new 'g' [SubTree.new 'h' [], SubTree.new 'i' []],
        SubTree.new 'j' []] := rfl

/-- C8: (modelled from the spec, the source fuses extraction and tree
construction) whenever a shape node's ID has no payload in the store,
`materialize` fails with a `LookupError` for the whole call — it returns no
tree at all, so no partial tree with the subtree dropped — and whenever it
does return a tree, that tree mirrors the shape exactly. -/
theorem claim8_lookup_error {P : Type} (F : List (SubTree Nat)) (store : List (Nat × P))
    (id : Nat) :
    (id ∈ idsOf F → id ∉ store.map Prod.fst → ∃ e, materialize F store = Except.error e) ∧
    (∀ ts st', materialize F store = Except.ok (ts, st') → stripD ts = stripS F) := by
  constructor
  · intro h1 h2
    exact materialize_error_of_missing F store id h1 h2
  · intro ts st' h
    exact materialize_shape F store h

theorem claim8_lookup_error_witness :
    ((0 : Nat) ∈ idsOf [SubTree.mk 0 []] ∧ (0 : Nat) ∉ ([] : List (Nat × Nat)).map Prod.fst ∧
      ∃ e, materialize [SubTree.mk 0 []] ([] : List (Nat × Nat)) = Except.error e) ∧
    (materialize [SubTree.mk 0 []] [((0 : Nat), (5 : Nat))]
        = Except.ok ([DNode.mk 5 []], ([] : List (Nat × Nat))) ∧
      stripD [DNode.mk (5 : Nat) []] = stripS [SubTree.mk 0 []]) := by
  have hmem : (0 : Nat) ∈ idsOf [SubTree.mk 0 []] := by simp [idsOf, flattenList]
  have hok : materialize [SubTree.mk 0 []] [((0 : Nat), (5 : Nat))]
      = Except.ok ([DNode.mk 5 []], ([] : List (Nat × Nat))) := by
    simp [materialize, lookupRemove]
  exact ⟨⟨hmem, by simp, (claim8_lookup_error [SubTree.mk 0 []] [] 0).1 hmem (by simp)⟩,
    ⟨hok, (claim8_lookup_error [SubTree.mk 0 []] [((0 : Nat), (5 : Nat))] 0).2
      [DNode.mk 5 []] [] hok⟩⟩

/-- C9: a comment row with nonzero indent processed on an empty parent stack
hits the `parent_stack.pop().unwrap()` panic (in particular when the very
first row has nonzero indent); if every nonzero-indent row is preceded by
some indent-0 row, the panic branch is unreachable and the loop completes. -/
theorem claim9_panic :
    (∀ (s : BState) (ind id : Nat) (l : List (Nat × Nat)), s.stack = [] → ind ≠ 0 →
      comment_loop s ((ind, id) :: l) = none) ∧
    (∀ (ind : Nat) (rest : List Nat), ind ≠ 0 → build_comments (ind :: rest) = none) ∧
    (∀ rows : List Nat, ZeroLed rows → ∃ s, build_comments rows = some s) := by
  have hpart1 : ∀ (s : BState) (ind id : Nat) (l : List (Nat × Nat)), s.stack = [] → ind ≠ 0 →
      comment_loop s ((ind, id) :: l) = none := by
    intro s ind id l hs hind
    have hpop : popTo s.stack ind = [] := by rw [hs]; rfl
    simp [comment_loop, comment_step_panic s id hind hpop]
  refine ⟨hpart1, ?_, ?_⟩
  · intro ind rest hind
    have hdec : decRows (ind :: rest) = (ind, 0) :: (rest.enumFrom 1).map fun p => (p.2, p.1) := by
      simp [decRows, List.enum_cons]
    rw [build_comments, hdec]
    exact hpart1 initState ind 0 _ rfl hind
  · intro rows hz
    cases rows with
    | nil => exact ⟨initState, rfl⟩
    | cons r rest =>
      have hr : r = 0 := by
        by_contra hr
        obtain ⟨j, hj, _⟩ := hz 0 (by simp) (by simpa using hr)
        omega
      subst hr
      have hdec : decRows (0 :: rest) = (0, 0) :: (rest.enumFrom 1).map fun p => (p.2, p.1) := by
        simp [decRows, List.enum_cons]
      rw [build_comments, hdec]
      simp only [comment_loop, comment_step_zero]
      obtain ⟨s', hs', _⟩ := comment_loop_total ((rest.enumFrom 1).map fun p => (p.2, p.1))
        { comments := initState.comments ++ [0], stack := 0 :: popTo initState.stack 0
          childrenF := initState.childrenF, parentF := initState.parentF } (by simp)
      exact ⟨s', hs'⟩

theorem claim9_panic_witness :
    (comment_loop initState [(1, 0)] = none) ∧
    (build_comments [2, 0] = none) ∧
    (∃ s, build_comments [0, 1] = some s) :=
  ⟨claim9_panic.1 initState 1 0 [] rfl (by decide),
    claim9_panic.2.1 2 [0] (by decide),
    claim9_panic.2.2 [0, 1] (by decide)⟩

/-- C10: on rows whose first indent is 0 and whose indents never jump up by
more than one, the parent-stack loop of `story_details` builds exactly the
forest `convert` builds on the same `(indent, id)` sequence: same roots in
order, and each node's `children` vector equals the node's child list in the
`convert` forest. -/
theorem claim10_equiv (rows : List Nat) (h : noGaps (decRows rows) = true) :
    ∃ s, build_comments rows = some s ∧
      s.comments = (convert (decRows rows)).children.map SubTree.val ∧
      ∀ nd ∈ nodesF (convert (decRows rows)).children,
        s.childrenF nd.val = nd.children.map SubTree.val := by
  have hsnd : (decRows rows).map Prod.snd = List.range rows.length := by
    rw [decRows, List.map_map,
      show (Prod.snd ∘ fun p : Nat × Nat => (p.2, p.1)) = Prod.fst from funext fun p => rfl,
      List.enum_map_fst]
  have hnd : ((decRows rows).map Prod.snd).Nodup := by
    rw [hsnd]
    exact List.nodup_range _
  obtain ⟨s, hrun, hcom, hch⟩ :=
    comment_loop_top (decRows rows).length (decRows rows) initState le_rfl h hnd
  have hfl : (flattenList (convert (decRows rows)).children).Nodup := by
    rw [flatten_convert (decRows rows) h, hsnd]
    exact List.nodup_range _
  refine ⟨s, hrun, ?_, ?_⟩
  · rw [hcom]
    simp [initState, convert, Tree.new]
  · intro nd hnd'
    rw [hch nd.val]
    have : adjF (make_tree (decRows rows) 0) nd.val = nd.children.map SubTree.val :=
      adjF_of_mem_nodesF (convert (decRows rows)).children hfl nd hnd'
    simp only [initState]
    rw [List.nil_append]
    exact this

theorem claim10_equiv_witness :
    noGaps (decRows [0, 1, 2, 1, 0]) = true ∧
    ∃ s, build_comments [0, 1, 2, 1, 0] = some s ∧
      s.comments = (convert (decRows [0, 1, 2, 1, 0])).children.map SubTree.val ∧
      ∀ nd ∈ nodesF (convert (decRows [0, 1, 2, 1, 0])).children,
        s.childrenF nd.val = nd.children.map SubTree.val :=
  ⟨by decide, claim10_equiv [0, 1, 2, 1, 0] (by decide)⟩


end HN
